import Mathlib

/-!
Shallow embedding of `src/phd-game-master/phd_game_master/src/crew_assets/tools.py`
(the asset-processing utilities of the repository) together with theorems settling
the specification claims about them.

Conventions of the embedding:
* `pathlib.Path` values become `FPath`: a list of directory components plus a
  final file-name component; `Path.stem` / `Path.with_suffix` become
  `stemOfName` / `withSuffixName` on the file-name component, following
  CPython's `rfind`-based suffix rule.
* PIL images are modelled by their pixel dimensions (`Img`); `ImageOps.fit`
  returns an image of exactly the requested size.
* The encoder of `ImageCompressTool` is abstracted by a function
  `s : Nat → Nat` from quality to encoded byte size; the `while` loop of
  `_run` becomes the recursion `compressLoop`, which returns the quality of
  the last `im.save` together with the number of save iterations performed.
* `pydub.AudioSegment` operations are recorded symbolically in `Seg`, so the
  exact gain delta and silence-stripping parameters applied are observable.
* `ffprobe` is abstracted by `probe : FPath → Option ℚ` (`none` = any failure
  of the probe subprocess or of `float(...)`); `ffmpeg` by a success flag.
* Python exceptions become values of explicit error types; functions that can
  raise return `Except`.
-/

set_option linter.unusedVariables false

/-- A filesystem path as the tools use `pathlib.Path`: directory components
plus a final file-name component.  `assets/images` is `⟨["assets", "images"], ·⟩`. -/
structure FPath where
  dirs : List String
  file : String
  deriving DecidableEq, Repr

/-- Helper for `stemOfName`: the input is the reversed character list of the
file name with its (non-dot) last character removed; returns the reversed
characters strictly before the last dot, provided that dot is not the first
character of the name (CPython requires `0 < i` for `i = name.rfind(".")`). -/
def stemRev : List Char → Option (List Char)
  | [] => none
  | c :: rest => if c = '.' then (if rest.isEmpty then none else some rest) else stemRev rest

/-- `pathlib.PurePath.stem`: the file name without its suffix.  CPython takes
`i = name.rfind(".")` and keeps `name[:i]` only when `0 < i < len(name) - 1`. -/
def stemOfName (n : String) : String :=
  match n.toList.reverse with
  | [] => n
  | c :: rest =>
    if c = '.' then n
    else
      match stemRev rest with
      | none => n
      | some st => String.mk st.reverse

/-- `pathlib.PurePath.with_suffix`: replace the suffix of a file name by
`sfx` (which includes the leading dot at every call site of the tools). -/
def withSuffixName (n sfx : String) : String :=
  stemOfName n ++ sfx

/-- Python `str.upper()`: character-wise upper-casing (the codec names at the
call sites are ASCII). -/
def strUpper (s : String) : String := String.mk (s.toList.map Char.toUpper)

/-- Python `str.lower()`: character-wise lower-casing. -/
def strLower (s : String) : String := String.mk (s.toList.map Char.toLower)

/-- `pathlib.PurePath.as_posix` rendering of an `FPath`. -/
def asPosix : FPath → String
  | ⟨[], f⟩ => f
  | ⟨d :: ds, f⟩ => d ++ "/" ++ asPosix ⟨ds, f⟩

/-- The fixed image output directory `IMG_DIR = assets/images` (tools.py lines 27-30). -/
def IMG_DIR : List String := ["assets", "images"]

/-- The fixed audio output directory `AUD_DIR = assets/audio` (tools.py lines 27-31). -/
def AUD_DIR : List String := ["assets", "audio"]

/-- The claim-side predicate "written into one of the fixed directories
`assets/images/` or `assets/audio/`". -/
def inAssetDirs (p : FPath) : Bool :=
  p.dirs == IMG_DIR || p.dirs == AUD_DIR

/-- A decoded raster image, modelled by its pixel dimensions. -/
structure Img where
  w : Nat
  h : Nat
  deriving DecidableEq, Repr

/-- `PIL.ImageOps.fit(src, size, ...)`: scales and center-crops, returning an
image of exactly the requested size (upscaling when the source is smaller). -/
def imageOpsFit (src : Img) (size : Nat × Nat) : Img :=
  ⟨size.1, size.2⟩

/-- The `variants` dict of `ImageResponsiveTool._run` (tools.py lines 46-50),
in insertion order: key, `(w_ratio, h_ratio)`. -/
def responsiveVariants : List (String × Nat × Nat) :=
  [("169", (16, 9)), ("32", (3, 2)), ("11", (1, 1))]

/-- `ImageResponsiveTool._run` (tools.py lines 44-61): for each variant,
`target_w = max_width`, `target_h = int(target_w * h_ratio / w_ratio)`
(float division truncated by `int`, which agrees with natural-number
division at these magnitudes), output written to
`IMG_DIR / f"{stem}_{key}.png"`.  Returns the (path, image) pairs in
variant order. -/
def imageResponsiveRun (src : Img) (pngPath : FPath) (maxWidth : Nat) : List (FPath × Img) :=
  responsiveVariants.map (fun v =>
    let targetW := maxWidth
    let targetH := targetW * v.2.2 / v.2.1
    let variant := imageOpsFit src (targetW, targetH)
    (⟨IMG_DIR, stemOfName pngPath.file ++ "_" ++ v.1 ++ ".png"⟩, variant))

/-- The `while quality >= 10` loop of `ImageCompressTool._run` (tools.py
lines 75-80), with the encoder abstracted as `s : quality ↦ byte size`.
Returns `(q, n)`: the quality of the last `im.save` performed and the number
of save iterations.  The loop saves at the current quality, stops when
`size // 1024 <= target_size_kb`, and otherwise decrements quality by 10. -/
def compressLoop (s : Nat → Nat) (targetKB : Nat) (quality : Nat) : Nat × Nat :=
  if h : quality < 10 then (quality, 0)
  else if s quality / 1024 ≤ targetKB then (quality, 1)
  else if quality - 10 < 10 then (quality, 1)
  else
    let r := compressLoop s targetKB (quality - 10)
    (r.1, r.2 + 1)
termination_by quality
decreasing_by omega

/-- `ImageCompressTool._run` (tools.py lines 68-81): uppercases `fmt`,
rejects formats other than AVIF/WEBP (the source message quotes the codec
names; quotes omitted here), sets
`out_file = Path(png_path).with_suffix(f".{fmt.lower()}")` — the source
path's own directory — runs the quality loop starting at 80, and returns
the output path.  The final save quality and iteration count of the loop
are returned alongside the path to make the written file observable. -/
def imageCompressRun (s : Nat → Nat) (pngPath : FPath) (fmt : String) (targetSizeKB : Nat) :
    Except String (FPath × Nat × Nat) :=
  let fmtU := strUpper fmt
  if fmtU = "AVIF" ∨ fmtU = "WEBP" then
    let outFile : FPath := ⟨pngPath.dirs, withSuffixName pngPath.file ("." ++ strLower fmtU)⟩
    let r := compressLoop s targetSizeKB 80
    .ok (outFile, r.1, r.2)
  else
    .error "fmt must be AVIF or WEBP"

/-- A `pydub.AudioSegment` with its processing history recorded symbolically:
the source clip carries its measured `dBFS` average level; `apply_gain` and
`strip_silence` are recorded with their exact arguments. -/
inductive Seg where
  | src (dBFS : ℚ)
  | gained (sg : Seg) (delta : ℚ)
  | stripped (sg : Seg) (silenceLen : Nat) (silenceThresh : Int)
  deriving DecidableEq, Repr

/-- The gains applied to a segment, in application order. -/
def gainsOf : Seg → List ℚ
  | .src _ => []
  | .gained sg d => gainsOf sg ++ [d]
  | .stripped sg _ _ => gainsOf sg

/-- The `strip_silence` calls applied to a segment, in application order,
as `(silence_len ms, silence_thresh dB)` pairs. -/
def stripsOf : Seg → List (Nat × Int)
  | .src _ => []
  | .gained sg _ => stripsOf sg
  | .stripped sg l t => stripsOf sg ++ [(l, t)]

/-- Result of `AudioNormalizeTool._run`: the final segment, the export calls
as `(path, format, bitrate)` in order, and the returned path. -/
structure NormalizeOut where
  final : Seg
  exports : List (FPath × String × String)
  ret : FPath
  deriving DecidableEq, Repr

/-- `AudioNormalizeTool._run` (tools.py lines 95-105): loads the clip
(measured average level `srcLevel` = `sound.dBFS`), applies
`change_needed = target_lufs - sound.dBFS`, strips silence with
`silence_len=200`, `silence_thresh=-40`, exports
`AUD_DIR/<stem>.ogg` at 96k and `AUD_DIR/<stem>.mp3` at 128k, and returns
the OGG path. -/
def audioNormalizeRun (srcLevel : ℚ) (srcPath : FPath) (targetLufs : ℚ) : NormalizeOut :=
  let sound0 := Seg.src srcLevel
  let changeNeeded := targetLufs - srcLevel
  let sound1 := Seg.gained sound0 changeNeeded
  let sound2 := Seg.stripped sound1 200 (-40)
  let stem := stemOfName srcPath.file
  let oggPath : FPath := ⟨AUD_DIR, stem ++ ".ogg"⟩
  let mp3Path : FPath := ⟨AUD_DIR, stem ++ ".mp3"⟩
  { final := sound2,
    exports := [(oggPath, "ogg", "96k"), (mp3Path, "mp3", "128k")],
    ret := oggPath }

/-- The Python exceptions `AudioSpriteTool._run` can raise: `ValueError` for
the clip-count check, `RuntimeError` wrapping an `ffprobe` failure, and
`subprocess.CalledProcessError` from the `ffmpeg` invocation. -/
inductive SpriteError where
  | valueError (msg : String)
  | runtimeError (msg : String)
  | calledProcessError
  deriving DecidableEq, Repr

/-- A cue map: a Python dict from clip stem to `[offset, duration]`,
modelled as an association list in insertion order. -/
def CueMap : Type := List (String × ℚ × ℚ)

/-- Python dict assignment `m[k] = v`: if `k` is already a key, its entry
keeps its position and gets the new value; otherwise the pair is appended. -/
def dictInsert (m : List (String × ℚ × ℚ)) (k : String) (v : ℚ × ℚ) :
    List (String × ℚ × ℚ) :=
  if m.any (fun e => e.1 = k) then
    m.map (fun e => if e.1 = k then (k, v) else e)
  else
    m ++ [(k, v)]

/-- Python dict lookup `m[k]` (first entry with the key, as keys are unique). -/
def lookupKey (k : String) : List (String × ℚ × ℚ) → Option (ℚ × ℚ)
  | [] => none
  | e :: r => if e.1 = k then some e.2 else lookupKey k r

/-- The `for p in paths` loop of `AudioSpriteTool._run` (tools.py
lines 127-149): probes each clip's duration (a probe failure raises
`RuntimeError(f"ffprobe failed for {p}: ...")`), records
`cue_map[Path(p).stem] = [cursor, dur]`, and advances the cursor. -/
def cueLoop (probe : FPath → Option ℚ) :
    List FPath → ℚ → List (String × ℚ × ℚ) →
    Except SpriteError (List (String × ℚ × ℚ))
  | [], _, m => .ok m
  | p :: rest, cursor, m =>
    match probe p with
    | none => .error (.runtimeError ("ffprobe failed for " ++ asPosix p))
    | some dur => cueLoop probe rest (cursor + dur) (dictInsert m (stemOfName p.file) (cursor, dur))

/-- `AudioSpriteTool._run` (tools.py lines 117-169): rejects fewer than two
clips before touching the filesystem; otherwise writes the concat list
`AUD_DIR/<sid>.txt`, runs the probe loop, invokes `ffmpeg` to produce
`AUD_DIR/<sid>.ogg` (success abstracted by `muxOk`), and writes the cue map
to `AUD_DIR/<sid>.json`.  Returns the list of files created during the call
together with the outcome (cue map and sprite path on success). -/
def audioSpriteRun (probe : FPath → Option ℚ) (muxOk : Bool) (sid : String)
    (clips : List FPath) :
    List FPath × Except SpriteError (List (String × ℚ × ℚ) × FPath) :=
  if clips.length < 2 then
    ([], .error (.valueError "Need ≥2 clips to create a sprite sheet."))
  else
    let concatTxt : FPath := ⟨AUD_DIR, sid ++ ".txt"⟩
    match cueLoop probe clips 0 [] with
    | .error e => ([concatTxt], .error e)
    | .ok m =>
      let spritePath : FPath := ⟨AUD_DIR, sid ++ ".ogg"⟩
      if muxOk then
        ([concatTxt, spritePath, ⟨AUD_DIR, sid ++ ".json"⟩], .ok (m, spritePath))
      else
        ([concatTxt], .error .calledProcessError)

/-- `GitOpsTool._run` (tools.py lines 182-197): the three git subprocess
calls are abstracted by their outcomes; a failing `add` or `commit` carries
the `CalledProcessError.output` string (`.trim` models `str.strip()`).
The Python control flow — the outer `try` around add/commit, the inner
`try` around push — becomes the nested match. -/
def gitOpsRun (add commit push : Except String Unit) : String :=
  match add with
  | .error e => "Git error: " ++ e.trim
  | .ok _ =>
    match commit with
    | .error e => "Git error: " ++ e.trim
    | .ok _ =>
      match push with
      | .error _ => "Committed locally (no remote/push failed)."
      | .ok _ => "Committed & pushed."

/-- Spec-side definition (claim C3's wording): `round(num / den)` on exact
rationals, rounding half up; at the counterexample below the quotient is not
a half-integer, so every rounding convention agrees. -/
def roundHalfUp (num den : Nat) : Nat :=
  (2 * num + den) / (2 * den)

/-- Spec-side predicate: the entries of a cue map are contiguous starting at
`c` — each entry's offset equals the running cursor, which then advances by
the entry's duration. -/
def contiguousFromB : ℚ → List (String × ℚ × ℚ) → Bool
  | _, [] => true
  | c, e :: r => (e.2.1 == c) && contiguousFromB (c + e.2.2) r

/-- The offsets of a cue map, in entry order. -/
def offsetsOf (m : List (String × ℚ × ℚ)) : List ℚ :=
  m.map (fun e => e.2.1)

/-- Spec-side predicate: a list of rationals is monotonically non-decreasing. -/
def monoNonDec : List ℚ → Bool
  | [] => true
  | [_] => true
  | a :: b :: r => decide (a ≤ b) && monoNonDec (b :: r)

/-- Spec-side definition (claim C10's wording): the `[offset, duration]`
value contributed by the LAST clip in the list whose stem is `k`, with the
cursor threaded exactly as the loop threads it. -/
def lastCue (probe : FPath → Option ℚ) : List FPath → ℚ → String → Option (ℚ × ℚ)
  | [], _, _ => none
  | p :: rest, c, k =>
    match probe p with
    | none => none
    | some d =>
      match lastCue probe rest (c + d) k with
      | some v => some v
      | none => if stemOfName p.file = k then some (c, d) else none

/-- The keys of a cue map, in entry order. -/
def keysOf (m : List (String × ℚ × ℚ)) : List String :=
  m.map (fun e => e.1)

/-- Key-set effect of one dict assignment: append the key if it is new. -/
def insKey (ks : List String) (k : String) : List String :=
  if k ∈ ks then ks else ks ++ [k]

/-- Example probe: clip duration is determined by the directory, so two clips
in different directories can share a stem.  `x/* ↦ 1s`, `y/* ↦ 2s`, `z/* ↦ 3s`. -/
def probeEx : FPath → Option ℚ := fun p =>
  if p.dirs = ["x"] then some 1
  else if p.dirs = ["y"] then some 2
  else if p.dirs = ["z"] then some 3
  else none

/-- Example clip list whose first and third clips share the stem `a`. -/
def clipsEx : List FPath := [⟨["x"], "a.wav"⟩, ⟨["y"], "b.wav"⟩, ⟨["z"], "a.wav"⟩]

/-- Example clip list with pairwise distinct stems `a`, `b`. -/
def clipsW : List FPath := [⟨["x"], "a.wav"⟩, ⟨["y"], "b.wav"⟩]

deriving instance DecidableEq for Except

/-- Example encoder: 100000 bytes (97 KB) once quality is at most 40,
one gigabyte above that — the compression loop stops at quality 40. -/
def sizeEx : Nat → Nat := fun q => if q ≤ 40 then 100000 else 10 ^ 9

/-- Example encoder whose output is always empty, so the first save fits. -/
def sizeZero : Nat → Nat := fun _ => 0

/-- Either `cueLoop` succeeds, or its error is the `RuntimeError` wrapping an
`ffprobe` failure — the `ValueError` of the clip-count check can never come
out of the probe loop. -/
theorem cueLoop_error_shape (probe : FPath → Option ℚ) :
    ∀ (clips : List FPath) (c : ℚ) (m : List (String × ℚ × ℚ)) (e : SpriteError),
      cueLoop probe clips c m = .error e → ∃ s, e = SpriteError.runtimeError s := by
  intro clips
  induction clips with
  | nil => intro c m e h; simp [cueLoop] at h
  | cons p rest ih =>
    intro c m e h
    cases hp : probe p with
    | none =>
      simp [cueLoop, hp] at h
      exact ⟨_, h.symm⟩
    | some d =>
      simp [cueLoop, hp] at h
      exact ih _ _ _ h

/-- C3 counterexample: at `max_width = 7` the code's heights (truncating
division, from `int(target_w * h_ratio / w_ratio)`) are `[3, 4, 7]`, while
the claim's `round(width * ratio_h / ratio_w)` gives `[4, 5, 7]`: the 16:9
and 3:2 variants are each one pixel shorter than the claim demands. -/
theorem imageResponsive_round_counterexample :
    ((imageResponsiveRun ⟨100, 100⟩ ⟨[], "x.png"⟩ 7).map (fun v => v.2.h)) = [3, 4, 7] ∧
    [roundHalfUp (7 * 9) 16, roundHalfUp (7 * 2) 3, roundHalfUp (7 * 1) 1] = [4, 5, 7] ∧
    ([3, 4, 7] : List Nat) ≠ [4, 5, 7] := by
  decide

/-- C3 (amended): for every source image and max width `W`, the three
variants produced by the Image Responsive Generator, paired with the ratios
16:9, 3:2, 1:1 in order, have width at most `W` and height equal to
`width * ratio_h / ratio_w` with integer truncation. -/
theorem imageResponsive_dims (src : Img) (p : FPath) (W : Nat) :
    ((imageResponsiveRun src p W).zip [(16, 9), (3, 2), (1, 1)]).all
      (fun x => decide (x.1.2.w ≤ W) && (x.1.2.h == x.1.2.w * x.2.2 / x.2.1)) = true := by
  simp [imageResponsiveRun, responsiveVariants, imageOpsFit]

/-- C9: every variant produced by the Image Responsive Generator has width
exactly `max_width`, for every source image — in particular a source
narrower than `max_width` is upscaled (the target size never depends on the
source dimensions), and exactly three variants are produced. -/
theorem imageResponsive_width_exact (src : Img) (p : FPath) (W : Nat) :
    (imageResponsiveRun src p W).all (fun v => v.2.w == W) = true ∧
    (imageResponsiveRun src p W).length = 3 := by
  constructor
  · simp [imageResponsiveRun, responsiveVariants, imageOpsFit]
  · simp [imageResponsiveRun, responsiveVariants]

/-- C6: the Audio Normalizer applies exactly one gain, equal to
`target_lufs` minus the measured average level; strips silence exactly once
with a 200 ms length threshold and a −40 dB amplitude threshold; exports
OGG at 96k then MP3 at 128k into `assets/audio` named after the source
stem; and returns the path of the first export (the OGG). -/
theorem audioNormalize_contract (lvl targetLufs : ℚ) (p : FPath) :
    gainsOf (audioNormalizeRun lvl p targetLufs).final = [targetLufs - lvl] ∧
    stripsOf (audioNormalizeRun lvl p targetLufs).final = [(200, -40)] ∧
    (audioNormalizeRun lvl p targetLufs).exports.map (fun e => (e.1.dirs, e.1.file, e.2)) =
      [(AUD_DIR, stemOfName p.file ++ ".ogg", ("ogg", "96k")),
       (AUD_DIR, stemOfName p.file ++ ".mp3", ("mp3", "128k"))] ∧
    (audioNormalizeRun lvl p targetLufs).exports.head? =
      some ((audioNormalizeRun lvl p targetLufs).ret, "ogg", "96k") ∧
    (audioNormalizeRun lvl p targetLufs).ret = ⟨AUD_DIR, stemOfName p.file ++ ".ogg"⟩ := by
  refine ⟨?_, ?_, ?_, ?_, ?_⟩ <;> simp [audioNormalizeRun, gainsOf, stripsOf]

/-- C4: Repository Sync is a total function of the three git outcomes (it
never raises); a successful commit with a failed push yields the
committed-only success string, which differs from the pushed success
string; and a failing stage or commit yields the descriptive string built
from the underlying failure's stripped output. -/
theorem gitOps_outcomes (commit push : Except String Unit) (e : String) :
    gitOpsRun (.ok ()) (.ok ()) (.error e) = "Committed locally (no remote/push failed)." ∧
    gitOpsRun (.ok ()) (.ok ()) (.ok ()) = "Committed & pushed." ∧
    "Committed locally (no remote/push failed)." ≠ "Committed & pushed." ∧
    gitOpsRun (.error e) commit push = "Git error: " ++ e.trim ∧
    gitOpsRun (.ok ()) (.error e) push = "Git error: " ++ e.trim := by
  refine ⟨rfl, rfl, by decide, ?_, ?_⟩ <;> simp [gitOpsRun]

/-- C5: the Audio Sprite Builder returns the `ValueError` for every input of
fewer than two clips, having written no file; and for two or more clips the
outcome is never a `ValueError`, whatever the probe and mux outcomes. -/
theorem audioSprite_min_clip_check (probe : FPath → Option ℚ) (muxOk : Bool) (sid : String)
    (clips : List FPath) :
    (clips.length < 2 →
      audioSpriteRun probe muxOk sid clips =
        ([], .error (.valueError "Need ≥2 clips to create a sprite sheet."))) ∧
    (2 ≤ clips.length →
      ∀ msg, (audioSpriteRun probe muxOk sid clips).2 ≠
        Except.error (SpriteError.valueError msg)) := by
  constructor
  · intro h
    simp [audioSpriteRun, h]
  · intro h msg
    simp only [audioSpriteRun]
    rw [if_neg (by omega)]
    cases h' : cueLoop probe clips 0 [] with
    | error e =>
      obtain ⟨s, rfl⟩ := cueLoop_error_shape probe clips 0 [] e h'
      simp
    | ok m =>
      cases muxOk <;> simp

/-- C5 witness: with no clips the builder returns exactly the `ValueError`
and writes nothing; with the two distinct-stem example clips the outcome is
not that `ValueError`. -/
theorem audioSprite_min_clip_check_witness :
    audioSpriteRun probeEx true "s" [] =
      ([], .error (.valueError "Need ≥2 clips to create a sprite sheet.")) ∧
    (audioSpriteRun probeEx true "s" clipsW).2 ≠
      Except.error (SpriteError.valueError "Need ≥2 clips to create a sprite sheet.") :=
  ⟨(audioSprite_min_clip_check probeEx true "s" []).1 (by decide),
   (audioSprite_min_clip_check probeEx true "s" clipsW).2 (by decide) _⟩

/-- One-step unfolding of the `while`-loop recursion of the Image Compressor. -/
theorem compressLoop_unfold (s : Nat → Nat) (t q : Nat) :
    compressLoop s t q =
      if q < 10 then (q, 0)
      else if s q / 1024 ≤ t then (q, 1)
      else if q - 10 < 10 then (q, 1)
      else ((compressLoop s t (q - 10)).1, (compressLoop s t (q - 10)).2 + 1) := by
  rw [compressLoop]
  rfl

/-- Full characterisation of the compression loop started at a multiple of
ten: the final save quality is a multiple of ten between 10 and the start,
it either met the byte budget (in kilobytes, as the code measures,
`st_size // 1024`) or is the floor 10, every higher quality on the ladder
was attempted and exceeded the budget, and the number of saves is
determined by the distance walked down the ladder. -/
theorem compressLoop_spec (s : Nat → Nat) (t : Nat) :
    ∀ q, 10 ≤ q → q % 10 = 0 →
      10 ≤ (compressLoop s t q).1 ∧
      (compressLoop s t q).1 ≤ q ∧
      (compressLoop s t q).1 % 10 = 0 ∧
      (s (compressLoop s t q).1 / 1024 ≤ t ∨ (compressLoop s t q).1 = 10) ∧
      (∀ q2, (compressLoop s t q).1 < q2 → q2 ≤ q → q2 % 10 = 0 → t < s q2 / 1024) ∧
      (compressLoop s t q).2 = (q - (compressLoop s t q).1) / 10 + 1 := by
  intro q
  induction q using Nat.strong_induction_on with
  | _ q ih =>
    intro h10 hmod
    rw [compressLoop_unfold]
    split_ifs with h1 h2 h3
    · omega
    · refine ⟨h10, le_refl q, hmod, Or.inl h2, ?_, by simp⟩
      intro q2 hgt hle
      omega
    · refine ⟨h10, le_refl q, hmod, Or.inr (by omega), ?_, by simp⟩
      intro q2 hgt hle
      omega
    · have ihq := ih (q - 10) (by omega) (by omega) (by omega)
      obtain ⟨i1, i2, i3, i4, i5, i6⟩ := ihq
      refine ⟨i1, by omega, i3, i4, ?_, by omega⟩
      intro q2 hgt hle hm
      rcases le_or_lt q2 (q - 10) with hc | hc
      · exact i5 q2 hgt hc hm
      · have : q2 = q := by omega
        subst this
        omega

/-- C2: the Image Compressor's loop starts at quality 80 and steps down the
ladder of multiples of ten; the quality of the file it returns either
yields a size at or under the budget (measured as the code does, in
kilobytes by truncating division) or is the floor 10, and every quality
above the final one on the ladder was tried and exceeded the budget (the
loop stopped as soon as the budget was met). -/
theorem imageCompress_budget_or_floor (s : Nat → Nat) (t : Nat) :
    10 ≤ (compressLoop s t 80).1 ∧
    (compressLoop s t 80).1 ≤ 80 ∧
    (compressLoop s t 80).1 % 10 = 0 ∧
    (s (compressLoop s t 80).1 / 1024 ≤ t ∨ (compressLoop s t 80).1 = 10) ∧
    (∀ q, (compressLoop s t 80).1 < q → q ≤ 80 → q % 10 = 0 → t < s q / 1024) :=
  have h := compressLoop_spec s t 80 (by omega) (by omega)
  ⟨h.1, h.2.1, h.2.2.1, h.2.2.2.1, h.2.2.2.2.1⟩

/-- C2 witness: with the example encoder and a 200 KB budget the loop stops
at quality 40 (whose 100000 bytes are 97 KB, within budget), and quality 50
— one rung above the final quality — was attempted and exceeded the budget. -/
theorem imageCompress_budget_or_floor_witness :
    (sizeEx (compressLoop sizeEx 200 80).1 / 1024 ≤ 200 ∨ (compressLoop sizeEx 200 80).1 = 10) ∧
    200 < sizeEx 50 / 1024 := by
  have h := imageCompress_budget_or_floor sizeEx 200
  refine ⟨h.2.2.2.1, ?_⟩
  apply h.2.2.2.2 50 ?_ (by omega) (by omega)
  have hv : compressLoop sizeEx 200 80 = (40, 5) := by
    simp [compressLoop_unfold, sizeEx]
  rw [hv]
  omega

/-- C7: for every encoder and supported codec name, compressing with a
200 KB budget performs at most 8 quality steps (the loop is a total
function, walking 80 down to at worst 10 by tens) and returns the source
path with its file name's suffix replaced by a dot followed by the codec's
lower-cased extension. -/
theorem imageCompress_steps_and_ext (s : Nat → Nat) (p : FPath) (fmt : String)
    (hfmt : strUpper fmt = "AVIF" ∨ strUpper fmt = "WEBP") :
    imageCompressRun s p fmt 200 =
      .ok (⟨p.dirs, stemOfName p.file ++ ("." ++ strLower (strUpper fmt))⟩,
        (compressLoop s 200 80).1, (compressLoop s 200 80).2) ∧
    (compressLoop s 200 80).2 ≤ 8 := by
  constructor
  · simp [imageCompressRun, hfmt, withSuffixName]
  · have h := compressLoop_spec s 200 80 (by omega) (by omega)
    omega

/-- C7 witness: a concrete run with codec avif and the example encoder
stops within 8 steps and yields `pics/cover.avif`. -/
theorem imageCompress_steps_and_ext_witness :
    imageCompressRun sizeEx ⟨["pics"], "cover.png"⟩ "avif" 200 =
      .ok (⟨["pics"], stemOfName "cover.png" ++ ("." ++ strLower (strUpper "avif"))⟩,
        (compressLoop sizeEx 200 80).1, (compressLoop sizeEx 200 80).2) ∧
    (compressLoop sizeEx 200 80).2 ≤ 8 :=
  imageCompress_steps_and_ext sizeEx ⟨["pics"], "cover.png"⟩ "avif" (Or.inl (by decide))

/-- C8 counterexample: the Image Compressor writes beside its source file —
compressing `project/foo.png` produces `project/foo.avif`, which lies in
neither `assets/images/` nor `assets/audio/`. -/
theorem imageCompress_escapes_asset_dirs :
    imageCompressRun sizeZero ⟨["project"], "foo.png"⟩ "AVIF" 200 =
      .ok (⟨["project"], "foo.avif"⟩, 80, 1) ∧
    inAssetDirs ⟨["project"], "foo.avif"⟩ = false := by
  constructor
  · simp [imageCompressRun, compressLoop_unfold, sizeZero, withSuffixName, stemOfName, stemRev]
    decide
  · decide

/-- C8 (amended): the responsive variants, both audio-normalizer exports
(and its returned path), and every file the sprite builder creates are
written into the fixed `assets/images/` or `assets/audio/` directories; the
image compressor instead writes into its source path's own directory (the
source path with its extension replaced). -/
theorem generated_media_dirs (src : Img) (p p2 : FPath) (W : Nat) (lvl tgt : ℚ)
    (probe : FPath → Option ℚ) (mux : Bool) (sid : String) (clips : List FPath)
    (s : Nat → Nat) (fmt : String) (t : Nat) :
    ((imageResponsiveRun src p W).all (fun v => inAssetDirs v.1) = true) ∧
    ((audioNormalizeRun lvl p tgt).exports.all (fun e => inAssetDirs e.1) = true) ∧
    (inAssetDirs (audioNormalizeRun lvl p tgt).ret = true) ∧
    ((audioSpriteRun probe mux sid clips).1.all (fun w => inAssetDirs w) = true) ∧
    (∀ r, imageCompressRun s p2 fmt t = .ok r → r.1.dirs = p2.dirs) := by
  refine ⟨?_, ?_, ?_, ?_, ?_⟩
  · simp [imageResponsiveRun, responsiveVariants, inAssetDirs, IMG_DIR]
  · simp [audioNormalizeRun, inAssetDirs, AUD_DIR]
  · simp [audioNormalizeRun, inAssetDirs, AUD_DIR]
  · by_cases h1 : clips.length < 2
    · simp [audioSpriteRun, h1]
    · simp only [audioSpriteRun, if_neg h1]
      cases h' : cueLoop probe clips 0 [] with
      | error e => simp [inAssetDirs, AUD_DIR]
      | ok m => cases mux <;> simp [inAssetDirs, AUD_DIR]
  · intro r h
    simp only [imageCompressRun] at h
    split_ifs at h
    rw [Except.ok.injEq] at h
    rw [← h]

/-- C8 amended-claim witness: the compressor hypothesis is satisfiable — the
concrete run of the counterexample lands in the source's directory. -/
theorem generated_media_dirs_witness :
    ((⟨["project"], "foo.avif"⟩, 80, 1) : FPath × Nat × Nat).1.dirs =
      (⟨["project"], "foo.png"⟩ : FPath).dirs :=
  (generated_media_dirs ⟨1, 1⟩ ⟨[], "x.png"⟩ ⟨["project"], "foo.png"⟩ 1 0 0 probeEx true "s" []
    sizeZero "AVIF" 200).2.2.2.2 (⟨["project"], "foo.avif"⟩, 80, 1)
    (by simp [imageCompressRun, compressLoop_unfold, sizeZero, withSuffixName, stemOfName, stemRev]
        decide)

theorem lookupKey_eq_none (m : List (String × ℚ × ℚ)) (k : String)
    (h : ∀ e ∈ m, e.1 ≠ k) :
    lookupKey k m = none := by
  induction m with
  | nil => rfl
  | cons e m ih =>
    rw [lookupKey, if_neg (h e (List.mem_cons_self e m))]
    exact ih (fun x hx => h x (List.mem_cons_of_mem e hx))

theorem lookupKey_isSome (m : List (String × ℚ × ℚ)) (k : String)
    (h : ∃ e ∈ m, e.1 = k) :
    ∃ w, lookupKey k m = some w := by
  induction m with
  | nil => simp at h
  | cons e m ih =>
    by_cases he : e.1 = k
    · exact ⟨e.2, by rw [lookupKey, if_pos he]⟩
    · rw [lookupKey, if_neg he]
      apply ih
      obtain ⟨x, hx, hxk⟩ := h
      rcases List.mem_cons.mp hx with rfl | hx2
      · exact absurd hxk he
      · exact ⟨x, hx2, hxk⟩

theorem lookupKey_append_single (m : List (String × ℚ × ℚ)) (k k2 : String) (v : ℚ × ℚ) :
    lookupKey k2 (m ++ [(k, v)]) =
      match lookupKey k2 m with
      | some w => some w
      | none => if k2 = k then some v else none := by
  induction m with
  | nil =>
    simp only [List.nil_append, lookupKey]
    by_cases hk : k2 = k
    · rw [if_pos hk.symm, if_pos hk]
    · rw [if_neg (fun hh => hk hh.symm), if_neg hk]
  | cons e m ih =>
    by_cases he : e.1 = k2
    · simp only [List.cons_append, lookupKey, if_pos he]
    · simp only [List.cons_append, lookupKey, if_neg he, List.append_eq, ih]

theorem lookupKey_map_update (m : List (String × ℚ × ℚ)) (k k2 : String) (v : ℚ × ℚ) :
    lookupKey k2 (m.map (fun e => if e.1 = k then (k, v) else e)) =
      match lookupKey k2 m with
      | some w => if k2 = k then some v else some w
      | none => none := by
  induction m with
  | nil => simp [lookupKey]
  | cons e m ih =>
    by_cases he : e.1 = k2
    · by_cases hek : e.1 = k
      · have hkk : k2 = k := he ▸ hek
        simp only [List.map_cons, if_pos hek, lookupKey, if_pos (hkk ▸ rfl : k = k2),
          if_pos he, if_pos hkk]
      · simp only [List.map_cons, if_neg hek, lookupKey, if_pos he,
          if_neg (fun hh : k2 = k => hek (he ▸ hh))]
    · by_cases hek : e.1 = k
      · have hkk : ¬ k = k2 := fun hh => he (hek.trans hh)
        simp only [List.map_cons, if_pos hek, lookupKey, if_neg hkk, if_neg he, ih]
      · simp only [List.map_cons, if_neg hek, lookupKey, if_neg he, ih]

theorem lookupKey_dictInsert (m : List (String × ℚ × ℚ)) (k k2 : String) (v : ℚ × ℚ) :
    lookupKey k2 (dictInsert m k v) = if k2 = k then some v else lookupKey k2 m := by
  unfold dictInsert
  by_cases hm : ∃ e ∈ m, e.1 = k
  · rw [if_pos (by simp only [List.any_eq_true, decide_eq_true_eq]; exact hm)]
    rw [lookupKey_map_update]
    by_cases hk : k2 = k
    · subst hk
      obtain ⟨w, hw⟩ := lookupKey_isSome m k2 hm
      simp [hw]
    · rw [if_neg hk]
      cases hl : lookupKey k2 m with
      | none => rfl
      | some w => simp [hk]
  · rw [if_neg (by simp only [List.any_eq_true, decide_eq_true_eq]; exact hm)]
    rw [lookupKey_append_single]
    by_cases hk : k2 = k
    · subst hk
      rw [lookupKey_eq_none m k2 (fun e he hek => hm ⟨e, he, hek⟩)]
    · cases hl : lookupKey k2 m <;> simp [hk]

theorem dictInsert_fresh (m : List (String × ℚ × ℚ)) (k : String) (v : ℚ × ℚ)
    (h : ∀ e ∈ m, e.1 ≠ k) :
    dictInsert m k v = m ++ [(k, v)] := by
  unfold dictInsert
  rw [if_neg]
  simp only [List.any_eq_true, decide_eq_true_eq, not_exists, not_and]
  exact h

theorem keysOf_dictInsert (m : List (String × ℚ × ℚ)) (k : String) (v : ℚ × ℚ) :
    keysOf (dictInsert m k v) = insKey (keysOf m) k := by
  unfold dictInsert insKey
  by_cases hm : ∃ e ∈ m, e.1 = k
  · rw [if_pos (by simp only [List.any_eq_true, decide_eq_true_eq]; exact hm),
      if_pos (by simp only [keysOf, List.mem_map]; exact hm)]
    unfold keysOf
    rw [List.map_map]
    apply List.map_congr_left
    intro e he
    by_cases hek : e.1 = k
    · simp [hek]
    · simp [hek]
  · rw [if_neg (by simp only [List.any_eq_true, decide_eq_true_eq]; exact hm),
      if_neg (by simp only [keysOf, List.mem_map]; exact hm)]
    simp [keysOf]

theorem mem_insKey (ks : List String) (a b : String) (h : a ∈ ks) : a ∈ insKey ks b := by
  unfold insKey
  split_ifs <;> simp [h]

theorem self_mem_insKey (ks : List String) (b : String) : b ∈ insKey ks b := by
  unfold insKey
  split_ifs with h
  · exact h
  · simp

theorem length_insKey_le (ks : List String) (b : String) :
    (insKey ks b).length ≤ ks.length + 1 := by
  unfold insKey
  split_ifs <;> simp

theorem length_insKey_mem (ks : List String) (b : String) (h : b ∈ ks) :
    (insKey ks b).length = ks.length := by
  simp [insKey, h]

theorem length_foldl_insKey_le :
    ∀ (l : List String) (ks : List String),
      (List.foldl insKey ks l).length ≤ ks.length + l.length := by
  intro l
  induction l with
  | nil => simp
  | cons b l ih =>
    intro ks
    have h1 := ih (insKey ks b)
    have h2 := length_insKey_le ks b
    simp only [List.foldl_cons, List.length_cons]
    omega

theorem length_foldl_insKey_nodup :
    ∀ (l : List String) (ks : List String), l.Nodup → (∀ a ∈ l, a ∉ ks) →
      (List.foldl insKey ks l).length = ks.length + l.length := by
  intro l
  induction l with
  | nil => simp
  | cons b l ih =>
    intro ks hnd hdis
    have hb : b ∉ ks := hdis b (List.mem_cons_self b l)
    have hins : insKey ks b = ks ++ [b] := by rw [insKey, if_neg hb]
    have := ih (insKey ks b) (List.Nodup.of_cons hnd) (by
      intro a ha
      rw [hins]
      simp only [List.mem_append, List.mem_singleton, not_or]
      refine ⟨hdis a (List.mem_cons_of_mem b ha), ?_⟩
      intro heq
      subst heq
      exact absurd ha (List.Nodup.not_mem hnd))
    rw [List.foldl_cons, this, hins]
    simp
    omega

theorem length_foldl_insKey_lt_mem :
    ∀ (l : List String) (ks : List String) (a : String), a ∈ ks → a ∈ l →
      (List.foldl insKey ks l).length < ks.length + l.length := by
  intro l
  induction l with
  | nil => simp
  | cons b l ih =>
    intro ks a hks hl
    rcases List.mem_cons.mp hl with rfl | hl2
    · have h1 := length_foldl_insKey_le l (insKey ks a)
      have h2 := length_insKey_mem ks a hks
      simp only [List.foldl_cons, List.length_cons]
      omega
    · have h1 := ih (insKey ks b) a (mem_insKey ks a b hks) hl2
      have h2 := length_insKey_le ks b
      simp only [List.foldl_cons, List.length_cons]
      omega

theorem length_foldl_insKey_dup :
    ∀ (l : List String) (ks : List String), ¬ l.Nodup →
      (List.foldl insKey ks l).length < ks.length + l.length := by
  intro l
  induction l with
  | nil => intro ks h; exact absurd List.nodup_nil h
  | cons b l ih =>
    intro ks hnd
    by_cases hb : b ∈ l
    · have h1 := length_foldl_insKey_lt_mem l (insKey ks b) b (self_mem_insKey ks b) hb
      have h2 := length_insKey_le ks b
      simp only [List.foldl_cons, List.length_cons]
      omega
    · have hl : ¬ l.Nodup := by
        intro hc
        exact hnd (List.Nodup.cons hb hc)
      have h1 := ih (insKey ks b) hl
      have h2 := length_insKey_le ks b
      simp only [List.foldl_cons, List.length_cons]
      omega

theorem cueLoop_ok_structure (probe : FPath → Option ℚ) :
    ∀ (clips : List FPath) (c : ℚ) (m m2 : List (String × ℚ × ℚ)),
      (clips.map (fun p => stemOfName p.file)).Nodup →
      (∀ p ∈ clips, ∀ e ∈ m, e.1 ≠ stemOfName p.file) →
      cueLoop probe clips c m = .ok m2 →
      ∃ tail, m2 = m ++ tail ∧ contiguousFromB c tail = true ∧
        tail.length = clips.length ∧
        (∀ e ∈ tail, ∃ p, p ∈ clips ∧ probe p = some e.2.2) := by
  intro clips
  induction clips with
  | nil =>
    intro c m m2 hnd hdis h
    simp only [cueLoop] at h
    have h2 : m = m2 := by injection h
    subst h2
    exact ⟨[], by simp, rfl, rfl, by simp⟩
  | cons p rest ih =>
    intro c m m2 hnd hdis h
    cases hp : probe p with
    | none => simp [cueLoop, hp] at h
    | some d =>
      simp only [cueLoop, hp] at h
      have hfresh : ∀ e ∈ m, e.1 ≠ stemOfName p.file :=
        fun e he => hdis p (List.mem_cons_self p rest) e he
      rw [dictInsert_fresh m _ _ hfresh] at h
      rw [List.map_cons] at hnd
      have hstem : stemOfName p.file ∉ rest.map (fun q => stemOfName q.file) :=
        (List.nodup_cons.mp hnd).1
      have ihr := ih (c + d) (m ++ [(stemOfName p.file, (c, d))]) m2
        (List.nodup_cons.mp hnd).2
        (by
          intro q hq e he
          rcases List.mem_append.mp he with hem | hee
          · exact hdis q (List.mem_cons_of_mem p hq) e hem
          · have he1 : e = (stemOfName p.file, (c, d)) := List.mem_singleton.mp hee
            rw [he1]
            intro hc
            have hc2 : stemOfName p.file = stemOfName q.file := hc
            apply hstem
            rw [hc2]
            exact List.mem_map_of_mem _ hq)
        h
      obtain ⟨tail2, hm2, hcont, hlen, hdur⟩ := ihr
      refine ⟨(stemOfName p.file, (c, d)) :: tail2, ?_, ?_, by simp [hlen], ?_⟩
      · rw [hm2, List.append_assoc]
        rfl
      · simp only [contiguousFromB, beq_self_eq_true, Bool.true_and]
        exact hcont
      · intro e he
        rcases List.mem_cons.mp he with rfl | he2
        · exact ⟨p, List.mem_cons_self p rest, hp⟩
        · obtain ⟨q, hq, hqd⟩ := hdur e he2
          exact ⟨q, List.mem_cons_of_mem p hq, hqd⟩

theorem cueLoop_ok_keys (probe : FPath → Option ℚ) :
    ∀ (clips : List FPath) (c : ℚ) (m m2 : List (String × ℚ × ℚ)),
      cueLoop probe clips c m = .ok m2 →
      keysOf m2 = List.foldl insKey (keysOf m) (clips.map (fun p => stemOfName p.file)) := by
  intro clips
  induction clips with
  | nil =>
    intro c m m2 h
    simp only [cueLoop] at h
    have h2 : m = m2 := by injection h
    subst h2
    simp
  | cons p rest ih =>
    intro c m m2 h
    cases hp : probe p with
    | none => simp [cueLoop, hp] at h
    | some d =>
      simp only [cueLoop, hp] at h
      rw [ih _ _ _ h, keysOf_dictInsert]
      simp

theorem cueLoop_ok_lookup (probe : FPath → Option ℚ) :
    ∀ (clips : List FPath) (c : ℚ) (m m2 : List (String × ℚ × ℚ)),
      cueLoop probe clips c m = .ok m2 →
      ∀ k, lookupKey k m2 =
        match lastCue probe clips c k with
        | some v => some v
        | none => lookupKey k m := by
  intro clips
  induction clips with
  | nil =>
    intro c m m2 h k
    simp only [cueLoop] at h
    have h2 : m = m2 := by injection h
    subst h2
    rfl
  | cons p rest ih =>
    intro c m m2 h k
    cases hp : probe p with
    | none => simp [cueLoop, hp] at h
    | some d =>
      simp only [cueLoop, hp] at h
      have := ih _ _ _ h k
      rw [this]
      simp only [lastCue, hp]
      cases hl : lastCue probe rest (c + d) k with
      | some v => rfl
      | none =>
        rw [lookupKey_dictInsert]
        by_cases hk : k = stemOfName p.file
        · rw [if_pos hk, if_pos hk.symm]
        · rw [if_neg hk, if_neg (fun hh => hk hh.symm)]

theorem mono_of_contiguous :
    ∀ (m : List (String × ℚ × ℚ)) (c : ℚ),
      contiguousFromB c m = true → (∀ e ∈ m, 0 ≤ e.2.2) →
      monoNonDec (offsetsOf m) = true := by
  intro m
  induction m with
  | nil => intro c _ _; rfl
  | cons a r ih =>
    intro c hc hd
    cases r with
    | nil => rfl
    | cons b r2 =>
      rw [contiguousFromB, Bool.and_eq_true] at hc
      have ha : a.2.1 = c := by simpa using hc.1
      have hc2 := hc.2
      have hb : b.2.1 = c + a.2.2 := by
        rw [contiguousFromB, Bool.and_eq_true] at hc2
        simpa using hc2.1
      have hmono := ih (c + a.2.2) hc.2 (fun e he => hd e (List.mem_cons_of_mem a he))
      have hda : 0 ≤ a.2.2 := hd a (List.mem_cons_self a (b :: r2))
      rw [offsetsOf, List.map_cons, List.map_cons, monoNonDec, Bool.and_eq_true]
      constructor
      · apply decide_eq_true
        rw [ha, hb]
        linarith
      · rw [offsetsOf, List.map_cons] at hmono
        exact hmono

theorem audioSpriteRun_ok_cueLoop (probe : FPath → Option ℚ) (mux : Bool) (sid : String)
    (clips : List FPath) (m : List (String × ℚ × ℚ)) (sp : FPath)
    (h : (audioSpriteRun probe mux sid clips).2 = .ok (m, sp)) :
    cueLoop probe clips 0 [] = .ok m := by
  by_cases h1 : clips.length < 2
  · simp [audioSpriteRun, h1] at h
  · simp only [audioSpriteRun, if_neg h1] at h
    cases h2 : cueLoop probe clips 0 [] with
    | error e => rw [h2] at h; simp at h
    | ok m2 =>
      rw [h2] at h
      cases mux with
      | false => simp at h
      | true =>
        simp only [if_pos rfl] at h
        have h3 : (m2, (⟨AUD_DIR, sid ++ ".ogg"⟩ : FPath)) = (m, sp) := by
          injection h
        rw [Prod.mk.injEq] at h3
        rw [h3.1]

/-- C1 counterexample: with two clips sharing the stem `a` (durations 1 s
and 3 s, with a 2 s clip `b` between them), the builder succeeds but the
final cue map is `a ↦ [3, 3], b ↦ [1, 2]`: its first entry's offset is 3,
not 0, offsets are not non-decreasing, and no contiguity equation links the
entries — the dict overwrite destroyed the first clip's cue. -/
theorem audioSprite_cue_contiguous_counterexample :
    (audioSpriteRun probeEx true "s" clipsEx).2 =
      .ok ([("a", (3, 3)), ("b", (1, 2))], ⟨AUD_DIR, "s.ogg"⟩) ∧
    contiguousFromB 0 [("a", (3, 3)), ("b", (1, 2))] = false ∧
    monoNonDec (offsetsOf [("a", (3, 3)), ("b", (1, 2))]) = false := by
  refine ⟨?_, by decide, by decide⟩
  have hc : cueLoop probeEx [⟨["x"], "a.wav"⟩, ⟨["y"], "b.wav"⟩, ⟨["z"], "a.wav"⟩] 0 [] =
      .ok [("a", (3, 3)), ("b", (1, 2))] := by
    simp [cueLoop, probeEx, dictInsert, stemOfName, stemRev]
    norm_num
  simp [audioSpriteRun, clipsEx, hc]

/-- C1 (amended): whenever the Audio Sprite Builder returns successfully on
clips whose filename stems are pairwise distinct (and the probed durations
are non-negative, as `ffprobe` durations are), the produced cue map is
contiguous: its entries are in clip order, the first offset is 0, each
entry is `[offset, duration]` with `offset(i+1) = offset(i) + duration(i)`
— `contiguousFromB 0` — and offsets are monotonically non-decreasing; the
map has exactly one entry per clip. -/
theorem audioSprite_cue_contiguous (probe : FPath → Option ℚ) (mux : Bool) (sid : String)
    (clips : List FPath) (m : List (String × ℚ × ℚ)) (sp : FPath)
    (hnodup : (clips.map (fun p => stemOfName p.file)).Nodup)
    (hpos : ∀ p d, probe p = some d → 0 ≤ d)
    (hrun : (audioSpriteRun probe mux sid clips).2 = .ok (m, sp)) :
    contiguousFromB 0 m = true ∧ monoNonDec (offsetsOf m) = true ∧
    m.length = clips.length := by
  have hc := audioSpriteRun_ok_cueLoop probe mux sid clips m sp hrun
  obtain ⟨tail, hm, hcont, hlen, hdur⟩ :=
    cueLoop_ok_structure probe clips 0 [] m hnodup (by simp) hc
  rw [List.nil_append] at hm
  subst hm
  refine ⟨hcont, ?_, hlen⟩
  apply mono_of_contiguous m 0 hcont
  intro e he
  obtain ⟨p, _, hp⟩ := hdur e he
  exact hpos p e.2.2 hp

/-- C1 witness: the two-clip distinct-stem example run yields the cue map
`a ↦ [0, 1], b ↦ [1, 2]`, which is contiguous from 0 with non-decreasing
offsets and one entry per clip. -/
theorem audioSprite_cue_contiguous_witness :
    contiguousFromB 0 [("a", (0, 1)), ("b", (1, 2))] = true ∧
    monoNonDec (offsetsOf [("a", (0, 1)), ("b", (1, 2))]) = true ∧
    ([("a", (0, 1)), ("b", (1, 2))] : List (String × ℚ × ℚ)).length = clipsW.length := by
  apply audioSprite_cue_contiguous probeEx true "w" clipsW _ ⟨AUD_DIR, "w.ogg"⟩
  · decide
  · intro p d h
    have : d = 1 ∨ d = 2 ∨ d = 3 := by
      unfold probeEx at h
      split_ifs at h <;> simp_all
    rcases this with rfl | rfl | rfl <;> norm_num
  · have hc : cueLoop probeEx [⟨["x"], "a.wav"⟩, ⟨["y"], "b.wav"⟩] 0 [] =
        .ok [("a", (0, 1)), ("b", (1, 2))] := by
      simp [cueLoop, probeEx, dictInsert, stemOfName, stemRev]
      try norm_num
    simp [audioSpriteRun, clipsW, hc]

/-- C10: on every successful run, a cue-map lookup for any stem returns the
`[offset, duration]` contributed by the last clip bearing that stem (later
clips overwrite earlier ones); with pairwise distinct stems the map has
exactly one entry per clip, and whenever stems repeat it has strictly fewer
entries than input clips. -/
theorem audioSprite_cue_overwrite (probe : FPath → Option ℚ) (mux : Bool) (sid : String)
    (clips : List FPath) (m : List (String × ℚ × ℚ)) (sp : FPath)
    (hrun : (audioSpriteRun probe mux sid clips).2 = .ok (m, sp)) :
    (∀ k, lookupKey k m = lastCue probe clips 0 k) ∧
    ((clips.map (fun p => stemOfName p.file)).Nodup → m.length = clips.length) ∧
    (¬ (clips.map (fun p => stemOfName p.file)).Nodup → m.length < clips.length) := by
  have hc := audioSpriteRun_ok_cueLoop probe mux sid clips m sp hrun
  have hkeys := cueLoop_ok_keys probe clips 0 [] m hc
  have hmlen : m.length = (List.foldl insKey [] (clips.map (fun p => stemOfName p.file))).length := by
    have hklen : (keysOf m).length = m.length := by simp [keysOf]
    rw [← hklen, hkeys]
    simp [keysOf]
  refine ⟨?_, ?_, ?_⟩
  · intro k
    have := cueLoop_ok_lookup probe clips 0 [] m hc k
    rw [this]
    cases hl : lastCue probe clips 0 k with
    | some v => rfl
    | none => rfl
  · intro hnd
    rw [hmlen, length_foldl_insKey_nodup _ [] hnd (by simp)]
    simp
  · intro hnd
    have := length_foldl_insKey_dup (clips.map (fun p => stemOfName p.file)) [] hnd
    rw [hmlen]
    simpa using this

/-- C10 witness: in the duplicate-stem example, looking up `a` in the final
cue map returns the third clip's cue `[3, 3]` (the later clip overwrote the
first), and the map has 2 entries for 3 clips. -/
theorem audioSprite_cue_overwrite_witness :
    lookupKey "a" [("a", (3, 3)), ("b", (1, 2))] = lastCue probeEx clipsEx 0 "a" ∧
    ([("a", (3, 3)), ("b", (1, 2))] : List (String × ℚ × ℚ)).length < clipsEx.length := by
  have hc : cueLoop probeEx [⟨["x"], "a.wav"⟩, ⟨["y"], "b.wav"⟩, ⟨["z"], "a.wav"⟩] 0 [] =
      .ok [("a", (3, 3)), ("b", (1, 2))] := by
    simp [cueLoop, probeEx, dictInsert, stemOfName, stemRev]
    norm_num
  have hrun : (audioSpriteRun probeEx true "s" clipsEx).2 =
      .ok ([("a", (3, 3)), ("b", (1, 2))], ⟨AUD_DIR, "s.ogg"⟩) := by
    simp [audioSpriteRun, clipsEx, hc]
  have h := audioSprite_cue_overwrite probeEx true "s" clipsEx _ _ hrun
  exact ⟨h.1 "a", h.2.2 (by decide)⟩
